import Mathlib

/-!
Shallow embedding of the gmail-scanner scan pipeline and link-extraction
engine (Go sources `cmd/api/main.go`, `internal/imap/client.go`,
`internal/database/db.go`), together with theorems settling the frozen
claims about them.

Strings manipulated by the extraction engine are modelled as `List Char`
(one entry per Unicode code point, as in Go's `[]rune`); Go's `len` on a
string counts UTF-8 bytes and is modelled by `goLen` below.
-/

namespace GmailScanner

/-- Character strings as lists of Unicode code points. -/
abbrev Str := List Char

/-- UTF-8 byte width of one code point, as produced by Go's string encoding. -/
def utf8Width (c : Char) : Nat :=
  if c.val < 0x80 then 1
  else if c.val < 0x800 then 2
  else if c.val < 0x10000 then 3
  else 4

/-- Model of Go's `len` on a (valid-UTF-8) string: total number of bytes. -/
def goLen (s : Str) : Nat := (s.map utf8Width).sum

/-- Model of `unicode.IsUpper` restricted to the Latin-1 range: the uppercase
letters are U+0041–U+005A, U+00C0–U+00D6 and U+00D8–U+00DE.  Code points above
U+00FF are conservatively classified as non-uppercase; no theorem below
depends on a character outside Latin-1. -/
def goIsUpper (c : Char) : Bool :=
  (0x41 ≤ c.val && c.val ≤ 0x5A) ||
  (0xC0 ≤ c.val && c.val ≤ 0xD6) ||
  (0xD8 ≤ c.val && c.val ≤ 0xDE)

/-- Model of `strings.ToLower` on the ASCII range: maps A–Z to a–z and leaves
every other code point unchanged.  (Go also folds non-ASCII letters; none of
the ignore-list patterns below contains a non-ASCII letter, so the ASCII
model is faithful wherever it is used.) -/
def goToLower (s : Str) : Str :=
  s.map fun c => if 0x41 ≤ c.val && c.val ≤ 0x5A then Char.ofNat (c.toNat + 32) else c

/-- Does `s` start with `p`?  Model of `strings.HasPrefix`. -/
def goStartsWith : Str → Str → Bool
  | _, [] => true
  | [], _ :: _ => false
  | x :: xs, y :: ys => x = y && goStartsWith xs ys

/-- Does `s` contain `p` as a contiguous substring?  Model of `strings.Contains`. -/
def goContains : Str → Str → Bool
  | [], p => p.isEmpty
  | x :: xs, p => goStartsWith (x :: xs) p || goContains xs p

/-- Split a list at the first occurrence of `c` (the separator is dropped);
`none` when `c` does not occur. -/
def splitFirst (c : Char) : Str → Option (Str × Str)
  | [] => none
  | x :: xs =>
    if x = c then some ([], xs)
    else match splitFirst c xs with
      | none => none
      | some (a, b) => some (x :: a, b)

/-- Split a list on every occurrence of `c`; always returns at least one
(possibly empty) segment, like Go's `strings.Split`. -/
def splitOn (c : Char) : Str → List Str
  | [] => [[]]
  | x :: xs =>
    let r := splitOn c xs
    if x = c then [] :: r
    else match r with
      | [] => [[x]]
      | s :: rest => (x :: s) :: rest

/-- Cut a query segment at its first `=`: `k=v ↦ (k, v)`, `k ↦ (k, "")`,
following Go's `strings.Cut` as used by `url.ParseQuery`. -/
def cutEq (seg : Str) : Str × Str :=
  match splitFirst '=' seg with
  | none => (seg, [])
  | some (k, v) => (k, v)

/-! ### Model of `net/url` as used by `normalizeURL` and `extractLinks`

The Go code relies on `url.Parse`, `url.URL.Query` / `Values.Del` /
`Values.Encode`, and `url.URL.String`.  The model below is a partial but
faithful embedding: `parseURL` succeeds only on absolute URLs of the shape
`scheme://host[path][?query][#fragment]` over a restricted character set
(no percent-escapes, no userinfo, no port, at most one `=` per query
segment); on every string it accepts, the fields and the round-trip
behaviour agree with Go's.  Strings outside this class are treated as
unparseable, which in `extractLinks` coincides with the anchor being
skipped. -/

/-- Lowercase ASCII letter. -/
def isLowerAlpha (c : Char) : Bool := 0x61 ≤ c.val && c.val ≤ 0x7A

/-- ASCII letter or digit. -/
def isAlphaNum (c : Char) : Bool :=
  (0x41 ≤ c.val && c.val ≤ 0x5A) || (0x61 ≤ c.val && c.val ≤ 0x7A) ||
  (0x30 ≤ c.val && c.val ≤ 0x39)

/-- Characters admitted in the host component of the model. -/
def isHostChar (c : Char) : Bool := isAlphaNum c || c = '.' || c = '-'

/-- Characters admitted in the path component of the model. -/
def isPathChar (c : Char) : Bool :=
  isAlphaNum c || c = '/' || c = '.' || c = '-' || c = '_' || c = '~'

/-- Characters admitted in query keys and values: exactly the characters Go's
`url.QueryEscape` leaves unescaped. -/
def isQChar (c : Char) : Bool :=
  isAlphaNum c || c = '.' || c = '-' || c = '_' || c = '~'

/-- Characters admitted in the raw query component. -/
def isQueryChar (c : Char) : Bool := isQChar c || c = '&' || c = '='

/-- Characters admitted in the fragment component. -/
def isFragChar (c : Char) : Bool :=
  isQueryChar c || c = '/' || c = '?'

/-- Every `&`-separated segment of the raw query holds at most one `=`. -/
def queryShapeOk (rq : Str) : Bool :=
  (splitOn '&' rq).all fun seg => (seg.filter (fun c => c = '=')).length ≤ 1

/-- Model of Go's `url.URL` restricted to the fields `normalizeURL` touches.
`forceQuery` mirrors `URL.ForceQuery` (a trailing `?` with an empty query). -/
structure GoURL where
  scheme : Str
  host : Str
  path : Str
  rawQuery : Str
  forceQuery : Bool
  fragment : Str
deriving DecidableEq, Repr

/-- Well-formedness of a `GoURL` within the model's restricted class. -/
def checkWF (u : GoURL) : Bool :=
  !u.scheme.isEmpty && u.scheme.all isLowerAlpha &&
  !u.host.isEmpty && u.host.all isHostChar &&
  u.path.all isPathChar && (u.path.isEmpty || u.path.head? = some '/') &&
  u.rawQuery.all isQueryChar && queryShapeOk u.rawQuery &&
  u.fragment.all isFragChar &&
  (!u.forceQuery || u.rawQuery.isEmpty)

/-- Fragment split of `url.Parse`: cut at the first `#` (the remainder is
the fragment). -/
def splitFragFn (t : Str) : Str × Str :=
  match splitFirst '#' t with
  | none => (t, ([] : Str))
  | some (a, b) => (a, b)

/-- Query split of `url.Parse`: Go's `ForceQuery` rule fires on a lone
trailing `?`; otherwise cut at the first `?` (the remainder is the raw
query). -/
def splitQueryFn (t1 : Str) : Str × Str × Bool :=
  if t1.getLast? = some '?' && t1.dropLast.all (fun c => c ≠ '?') then
    (t1.dropLast, ([] : Str), true)
  else match splitFirst '?' t1 with
    | none => (t1, ([] : Str), false)
    | some (a, b) => (a, b, false)

/-- Authority split of `url.Parse`: the host runs to the first `/`; the path
is the remainder (re-prefixed with its `/`). -/
def splitHostFn (t2 : Str) : Str × Str :=
  match splitFirst '/' t2 with
  | none => (t2, ([] : Str))
  | some (h, p) => (h, '/' :: p)

/-- The scheme-relative part of `parseURL`: splits off the fragment, the
query and the host in Go's order; the candidate must satisfy `checkWF`. -/
def parseAfterScheme (sch t : Str) : Option GoURL :=
  let fp := splitFragFn t
  let qp := splitQueryFn fp.1
  let hp := splitHostFn qp.1
  let u : GoURL :=
    { scheme := sch, host := hp.1, path := hp.2,
      rawQuery := qp.2.1, forceQuery := qp.2.2, fragment := fp.2 }
  if checkWF u then some u else none

/-- Partial model of `url.Parse`: splits off the scheme at the first `:`,
requires the `//` of an absolute URL, and hands the remainder to
`parseAfterScheme`. -/
def parseURL (s : Str) : Option GoURL :=
  match splitFirst ':' s with
  | none => none
  | some (sch, rest) =>
    match rest with
    | c1 :: c2 :: t =>
      if c1 = '/' ∧ c2 = '/' then parseAfterScheme sch t else none
    | _ => none

/-- Model of `url.URL.String` on the restricted class: none of the admitted
characters is escaped by Go's printer, so printing is plain concatenation. -/
def urlToString (u : GoURL) : Str :=
  u.scheme ++ ':' :: '/' :: '/' :: u.host ++ u.path ++
    (if u.forceQuery = true ∨ u.rawQuery ≠ [] then '?' :: u.rawQuery else []) ++
    (if u.fragment = [] then [] else '#' :: u.fragment)

/-- Model of `url.ParseQuery` (as invoked through `URL.Query`, which drops
malformed pairs): split on `&`, skip empty segments and segments holding a
`;`, cut each remaining segment at its first `=`.  The result is the list of
key/value pairs in source order — the ordered contents of Go's `url.Values`. -/
def parseQuery (rq : Str) : List (Str × Str) :=
  (splitOn '&' rq).filterMap fun seg =>
    if seg = [] ∨ (';') ∈ seg then none else some (cutEq seg)

/-- The tracking parameters removed by `normalizeURL`
(`internal/imap/client.go`). -/
def trackingParams : List Str :=
  (["utm_source", "utm_medium", "utm_campaign", "utm_term", "utm_content",
    "ref", "source", "mc_cid", "mc_eid",
    "fbclid", "gclid", "dclid",
    "_ga", "_gl",
    "oly_enc_id", "oly_anon_id",
    "vero_id", "vero_conv",
    "spm", "share_token",
    "si", "feature"] : List String).map String.toList

/-- The loop `for _, param := range trackingParams { query.Del(param) }`:
every pair whose key is a tracking parameter is removed. -/
def delTracking (q : List (Str × Str)) : List (Str × Str) :=
  q.filter fun p => decide (p.1 ∉ trackingParams)

/-- Strict lexicographic order on strings by code point, matching Go's
byte-wise `sort.Strings` on the ASCII character class of query keys. -/
def ltK : Str → Str → Bool
  | [], [] => false
  | [], _ :: _ => true
  | _ :: _, [] => false
  | a :: as, b :: bs =>
    if a.toNat < b.toNat then true
    else if b.toNat < a.toNat then false
    else ltK as bs

/-- Key order of `url.Values.Encode`: pair `p` may precede pair `q`. -/
def keyLe (p q : Str × Str) : Prop := ltK q.1 p.1 = false

instance : DecidableRel keyLe := fun p q =>
  inferInstanceAs (Decidable (ltK q.1 p.1 = false))

/-- Sort of a pair list by key — the ordering `url.Values.Encode` produces
(keys sorted; values of one key kept in insertion order). -/
def sortPairs (q : List (Str × Str)) : List (Str × Str) :=
  q.insertionSort keyLe

/-- Join segments with a separator string, as `strings.Join` does. -/
def joinSep (sep : Str) : List Str → Str
  | [] => []
  | [s] => s
  | s :: t :: rest => s ++ sep ++ joinSep sep (t :: rest)

/-- Model of `url.Values.Encode` on the restricted class: keys sorted,
each pair printed `k=v`, pairs joined by `&` (no character needs escaping). -/
def encodeQ (q : List (Str × Str)) : Str :=
  joinSep ['&'] ((sortPairs q).map fun p => p.1 ++ '=' :: p.2)

/-- `strings.TrimSuffix(path, "/")`: removes one trailing slash if present. -/
def trimOneSlash (p : Str) : Str :=
  if p.getLast? = some '/' then p.dropLast else p

/-- The query rewrite of `normalizeURL`: parse the raw query, delete the
tracking parameters, and re-encode — or drop the query entirely when no
parameter remains (`len(query) == 0`). -/
def normQuery (rq : Str) : Str :=
  let q := delTracking (parseQuery rq)
  if q = [] then [] else encodeQ q

/-- The field updates performed by `normalizeURL` before printing: delete
tracking parameters (dropping the `?` when no parameter remains), clear the
fragment, trim one trailing slash from the path. -/
def normalizeStruct (u : GoURL) : GoURL :=
  { u with rawQuery := normQuery u.rawQuery,
           fragment := [],
           path := trimOneSlash u.path }

/-- Model of `normalizeURL` (`internal/imap/client.go`): normalize the
parsed URL's fields and print the result. -/
def normalizeURL (u : GoURL) : Str := urlToString (normalizeStruct u)

/-! ### The link-extraction engine (`internal/imap/client.go`) -/

/-- The fixed ignore-list of `isIgnorableLink`. -/
def ignoredPatterns : List Str :=
  (["unsubscribe",
    "preferences",
    "mailto:",
    "tel:",
    "facebook.com/sharer",
    "twitter.com/intent",
    "twitter.com/share",
    "linkedin.com/sharing",
    "linkedin.com/shareArticle",
    "pinterest.com/pin",
    "reddit.com/submit",
    "wa.me",
    "whatsapp.com",
    "t.me",
    "#"] : List String).map String.toList

/-- Model of `isIgnorableLink`: lowercases the href, discards hrefs starting
with `#`, hrefs shorter than 10 bytes, and hrefs containing any ignored
pattern as a substring. -/
def isIgnorableLink (href : Str) : Bool :=
  let lowerHref := goToLower href
  if goStartsWith lowerHref ('#' :: []) then true
  else if goLen href < 10 then true
  else ignoredPatterns.any fun pat => goContains lowerHref pat

/-- Model of `isValidTitle`: at least 20 bytes long (Go's `len` counts UTF-8
bytes), and the first code point — the first iteration of `for _, r := range
title` — is an uppercase letter. -/
def isValidTitle (title : Str) : Bool :=
  if goLen title < 20 then false
  else match title with
    | [] => false
    | c :: _ => goIsUpper c

/-- Go's `title[:200]` slices 200 bytes; the model takes whole code points
while at most 200 bytes have been consumed (the byte count of the result can
fall below 200 only when a multi-byte code point straddles the boundary, in
which case Go would emit a truncated encoding that a `List Char` cannot
represent). -/
def byteTake : Nat → Str → Str
  | _, [] => []
  | budget, c :: cs =>
    if utf8Width c ≤ budget then c :: byteTake (budget - utf8Width c) cs
    else []

/-- Trim ASCII whitespace from both ends, modelling `strings.TrimSpace` on
the ASCII range. -/
def goTrimSpace (s : Str) : Str :=
  let isSp := fun c => c = ' ' || c = '\t' || c = '\n' || c = '\r'
  ((s.dropWhile isSp).reverse.dropWhile isSp).reverse

/-- An anchor element as the extraction loop sees it.  The DOM traversal
(goquery) and the multi-strategy `extractTitleFromLink` are modelled
abstractly: the anchor carries its `href` attribute, the title that
`extractTitleFromLink` resolves for it, and the text of the paragraph that
follows the anchor's parent (`""` when the next sibling is not a `<p>`). -/
structure Anchor where
  href : Str
  resolvedTitle : Str
  nextParagraph : Str
deriving DecidableEq, Repr

/-- One emitted link (`EmailLink` in the source). -/
structure EmailLink where
  url : Str
  title : Str
  description : Str
  domain : Str
  position : Nat
deriving DecidableEq, Repr

/-- The body of the `doc.Find("a[href]").Each` callback, iterated over the
anchors in document order, carrying the `seenURLs` set and the `position`
counter exactly as the source does: the seen-set is updated *before* the
title is validated. -/
def extractLinksGo : List Anchor → List Str → Nat → List EmailLink
  | [], _, _ => []
  | a :: rest, seen, pos =>
    if a.href.isEmpty then extractLinksGo rest seen pos
    else if isIgnorableLink a.href then extractLinksGo rest seen pos
    else match parseURL a.href with
      | none => extractLinksGo rest seen pos
      | some u =>
        if u.scheme ≠ ("http").toList ∧ u.scheme ≠ ("https").toList then
          extractLinksGo rest seen pos
        else
          let normalizedURL := normalizeURL u
          if normalizedURL ∈ seen then extractLinksGo rest seen pos
          else
            let seen' := normalizedURL :: seen
            let title := a.resolvedTitle
            if ¬ isValidTitle title then extractLinksGo rest seen' pos
            else
              let title' := if 200 < goLen title
                then byteTake 200 title ++ ("...").toList else title
              let d := goTrimSpace a.nextParagraph
              let description := if 300 < goLen d
                then byteTake 300 d ++ ("...").toList else d
              { url := normalizedURL, title := title',
                description := description, domain := u.host,
                position := pos } :: extractLinksGo rest seen' (pos + 1)

/-- Model of `extractLinks`: process the document's anchors in order with an
empty seen-set and position `0`.  (A parse failure of the whole HTML body
returns `[]` in the source; the model starts from the anchor list the DOM
traversal yields.) -/
def extractLinks (anchors : List Anchor) : List EmailLink :=
  extractLinksGo anchors [] 0

/-! ### The scan orchestrator (`cmd/api/main.go`) and article store
(`internal/database/db.go`)

The scan task is sequential Go code; the only concurrency are the mutex
(every access below happens under it in the source, so the model threads the
state directly) and the capacity-1 cancellation channel, modelled by the
`cancelPending` flag plus a schedule `cancelAt`: the handler's signal is
considered posted once `cancelAt` messages have been processed. -/

/-- A stored article row (`database.Article`); `created_at`/`id` are assigned
by SQLite and irrelevant to the claims. -/
structure Article where
  url : String
  title : String
  description : String
  domain : String
  newsletter : String
  emailDate : String
  folder : String
deriving DecidableEq, Repr

/-- Model of `Database.IndexArticle`: `INSERT OR IGNORE` into a table with a
unique index on `url` — insert if no row with that url exists, otherwise
leave the table unchanged.  In either case the call returns without error. -/
def IndexArticle (dbArticles : List Article) (a : Article) : List Article :=
  if dbArticles.any fun x => x.url = a.url then dbArticles else dbArticles ++ [a]

/-- The `ScanStatus` record of `main.go` (`last_scan_time` modelled as an
opaque tick). -/
structure ScanStatusRec where
  isRunning : Bool
  lastScanTime : Nat
  lastEmailsScanned : Nat
  lastError : String
deriving DecidableEq, Repr

/-- The `ScanProgress` record of `main.go`. -/
structure ScanProgressRec where
  currentFolder : String
  foldersTotal : Nat
  foldersProcessed : Nat
  emailsTotal : Nat
  emailsProcessed : Nat
  articlesFound : Nat
  percentComplete : Nat
  status : String
deriving DecidableEq, Repr

/-- The process-wide mutable state guarded by `scanMutex`, together with the
article table and the content of the capacity-1 `cancelScan` channel. -/
structure ServerState where
  isScanning : Bool
  scanStatus : ScanStatusRec
  scanProgress : ScanProgressRec
  cancelPending : Bool
  dbArticles : List Article
deriving DecidableEq, Repr

/-- One extracted link as the scan loop consumes it. -/
structure ScanLink where
  url : String
  title : String
  description : String
  domain : String
deriving DecidableEq, Repr

/-- One fetched message (`imap.EmailMessage` restricted to the fields the
scan loop reads). -/
structure ScanMsg where
  links : List ScanLink
  fromAddr : String
  date : String
  folder : String
deriving DecidableEq, Repr

/-- A folder of the scan request together with the outcome of
`imapClient.FetchMessages` on it (`none` models a fetch error). -/
structure FolderInput where
  name : String
  fetch : Option (List ScanMsg)
deriving DecidableEq, Repr

/-- Is the cancellation signal pending once `processed` messages have been
handled?  `cancelAt = some n` means the handler posts the signal after the
`n`-th processed message; `none` means no cancel request arrives. -/
def sigPending (cancelAt : Option Nat) (processed : Nat) : Bool :=
  match cancelAt with
  | none => false
  | some n => n ≤ processed

/-- The article row built from a message and one of its links inside the
scan loop. -/
def mkArticle (msg : ScanMsg) (l : ScanLink) : Article :=
  { url := l.url, title := l.title, description := l.description,
    domain := l.domain, newsletter := msg.fromAddr,
    emailDate := msg.date, folder := msg.folder }

/-- Accumulator of the scan loops: the shared state, `totalArticleCount`,
and the global number of processed messages (driving the cancel schedule). -/
structure ScanAcc where
  st : ServerState
  count : Nat
  processed : Nat
deriving DecidableEq, Repr

/-- The cancellation branch of `performScan`: record the message, set the
progress status, consume the signal, and return. -/
def cancelBranch (st : ServerState) : ServerState :=
  { st with
    scanStatus := { st.scanStatus with lastError := "Varredura cancelada pelo usuário" },
    scanProgress := { st.scanProgress with status := "cancelled" },
    cancelPending := false }

/-- The deferred cleanup of `performScan`, run on *every* exit path: clears
both running flags, stamps `lastScanTime`, and sets the progress status to
`"completed"`. -/
def deferCleanup (now : Nat) (st : ServerState) : ServerState :=
  { st with
    isScanning := false,
    scanStatus := { st.scanStatus with isRunning := false, lastScanTime := now },
    scanProgress := { st.scanProgress with status := "completed" } }

/-- The inner message loop of `performScan` over one folder: checks the
cancellation signal every 10 messages (returning `true` when cancelled),
indexes every link of the message (incrementing `totalArticleCount` for each
call of `IndexArticle` that returns no error — in the model, every call),
then bumps the progress counters. -/
def scanMsgs (cancelAt : Option Nat) : List ScanMsg → Nat → ScanAcc → ScanAcc × Bool
  | [], _, acc => (acc, false)
  | msg :: rest, j, acc =>
    if j % 10 = 0 && sigPending cancelAt acc.processed then
      ({ acc with st := cancelBranch acc.st }, true)
    else
      let dbA := msg.links.foldl (fun d l => IndexArticle d (mkArticle msg l)) acc.st.dbArticles
      let cnt := acc.count + msg.links.length
      let st' := { acc.st with
        dbArticles := dbA,
        scanProgress := { acc.st.scanProgress with
          emailsProcessed := acc.st.scanProgress.emailsProcessed + 1,
          articlesFound := cnt } }
      scanMsgs cancelAt rest (j + 1) { st := st', count := cnt, processed := acc.processed + 1 }

/-- The folder loop of `performScan`: checks the cancellation signal before
each folder, updates `current_folder` / `folders_processed` /
`percent_complete`, skips a folder whose fetch fails, and otherwise adds the
fetched count to `emails_total` and runs the message loop. -/
def scanFolders (cancelAt : Option Nat) (total : Nat) :
    List FolderInput → Nat → ScanAcc → ScanAcc × Bool
  | [], _, acc => (acc, false)
  | f :: rest, i, acc =>
    if sigPending cancelAt acc.processed then
      ({ acc with st := cancelBranch acc.st }, true)
    else
      let st1 := { acc.st with scanProgress := { acc.st.scanProgress with
        currentFolder := f.name, foldersProcessed := i,
        percentComplete := i * 100 / total } }
      match f.fetch with
      | none => scanFolders cancelAt total rest (i + 1) { acc with st := st1 }
      | some msgs =>
        let st2 := { st1 with scanProgress := { st1.scanProgress with
          emailsTotal := st1.scanProgress.emailsTotal + msgs.length } }
        let r := scanMsgs cancelAt msgs 0 { acc with st := st2 }
        if r.2 then r else scanFolders cancelAt total rest (i + 1) r.1

/-- Model of `performScan`.  `connOk`/`connErr` describe the outcome of
`session.GetIMAPClient()`, `folders` carries each folder's fetch outcome,
`cancelAt` the cancellation schedule, `now` the completion timestamp.  The
model assumes the drained cancellation channel `startScan` provides.  Every
return path ends in `deferCleanup`, exactly like the source's `defer`. -/
def performScan (connOk : Bool) (connErr : String) (folders : List FolderInput)
    (cancelAt : Option Nat) (now : Nat) (st : ServerState) : ServerState :=
  let st0 := { st with scanProgress :=
    { currentFolder := "", foldersTotal := folders.length, foldersProcessed := 0,
      emailsTotal := 0, emailsProcessed := 0, articlesFound := 0,
      percentComplete := 0, status := "connecting" } }
  if !connOk then
    deferCleanup now { st0 with
      scanStatus := { st0.scanStatus with
        lastError := "Falha ao conectar IMAP: " ++ connErr },
      scanProgress := { st0.scanProgress with status := "error" } }
  else
    let st1 := { st0 with scanProgress := { st0.scanProgress with status := "scanning" } }
    let r := scanFolders cancelAt folders.length folders 0 ⟨st1, 0, 0⟩
    if r.2 then deferCleanup now r.1.st
    else
      let acc := r.1
      deferCleanup now { acc.st with
        scanStatus := { acc.st.scanStatus with
          lastEmailsScanned := acc.st.scanProgress.emailsProcessed,
          lastError := "" },
        scanProgress := { acc.st.scanProgress with
          foldersProcessed := folders.length, percentComplete := 100,
          articlesFound := acc.count, status := "completed" },
        cancelPending := sigPending cancelAt acc.processed }

/-- An HTTP response of the handlers, reduced to status code and body. -/
structure HttpResp where
  code : Nat
  body : String
deriving DecidableEq, Repr

/-- Model of the `startScan` handler up to the point where the scan
goroutine is (or is not) spawned.  The test-and-set of `isScanning` happens
atomically under `scanMutex`.  `authOk` merges the two authentication
look-ups (`GetAuthToken`, `GetSession`), both of which reset the flags and
answer 401 on failure.  The returned `Bool` tells whether `performScan` was
spawned; on success the handler first drains a stale cancellation signal. -/
def startScan (authOk : Bool) (st : ServerState) : HttpResp × ServerState × Bool :=
  if st.isScanning then
    ({ code := 409, body := "varredura já em andamento" }, st, false)
  else
    let st1 := { st with
      isScanning := true,
      scanStatus := { st.scanStatus with isRunning := true } }
    if !authOk then
      ({ code := 401, body := "não autorizado" },
       { st1 with
         isScanning := false,
         scanStatus := { st1.scanStatus with isRunning := false } }, false)
    else
      ({ code := 200, body := "started" }, { st1 with cancelPending := false }, true)

/-- Model of the `cancelScanHandler`: a 400 error when no scan is running;
otherwise a non-blocking send on the capacity-1 channel — a no-op when a
signal is already pending — and a 200 "cancelling" response. -/
def cancelScanHandler (st : ServerState) : HttpResp × ServerState :=
  if !st.isScanning then
    ({ code := 400, body := "nenhuma varredura em andamento" }, st)
  else
    let st' := if st.cancelPending then st else { st with cancelPending := true }
    ({ code := 200, body := "cancelamento solicitado" }, st')

/-! ### Concrete fixtures used by the claim theorems -/

/-- The scan-status record set up by `init()`. -/
def idleStatus : ScanStatusRec :=
  { isRunning := false, lastScanTime := 0, lastEmailsScanned := 0, lastError := "" }

/-- The progress record set up by `init()`. -/
def idleProgress : ScanProgressRec :=
  { currentFolder := "", foldersTotal := 0, foldersProcessed := 0, emailsTotal := 0,
    emailsProcessed := 0, articlesFound := 0, percentComplete := 0, status := "idle" }

/-- A freshly started server with an empty article table. -/
def idleState : ServerState :=
  { isScanning := false, scanStatus := idleStatus, scanProgress := idleProgress,
    cancelPending := false, dbArticles := [] }

/-- The state right after `startScan` set the running flags and spawned the
scan task. -/
def runningState : ServerState :=
  { idleState with isScanning := true, scanStatus := { idleStatus with isRunning := true } }

/-- A running server with a cancellation signal already pending. -/
def runningPendingState : ServerState :=
  { runningState with cancelPending := true }

/-- A fetched message with no extracted links. -/
def emptyMsg : ScanMsg :=
  { links := [], fromAddr := "news@letter.io", date := "2026-01-01", folder := "INBOX" }

/-- A scan request of two folders holding 25 and 5 messages. -/
def cancelFolders : List FolderInput :=
  [{ name := "INBOX", fetch := some (List.replicate 25 emptyMsg) },
   { name := "News", fetch := some (List.replicate 5 emptyMsg) }]

/-- A link whose canonical URL occurs in two different messages. -/
def dupLink : ScanLink :=
  { url := "https://x.com/a", title := "T", description := "", domain := "x.com" }

/-- A message carrying `dupLink`. -/
def dupMsg : ScanMsg :=
  { links := [dupLink], fromAddr := "n@l.io", date := "2026-01-01", folder := "INBOX" }

/-- One folder whose two messages both carry the same canonical URL. -/
def dupFolders : List FolderInput :=
  [{ name := "INBOX", fetch := some [dupMsg, dupMsg] }]

/-- An href that passes every filter of the claim's premise but carries a
fragment. -/
def fragHref : Str := ("https://x.com/a/b#frag").toList

/-- An anchor whose first occurrence of a URL fails the title gate. -/
def shortTitleAnchor : Anchor :=
  { href := ("https://x.com/article-one").toList,
    resolvedTitle := ("too short").toList, nextParagraph := [] }

/-- An anchor with the same canonical URL and a valid title. -/
def goodTitleAnchor : Anchor :=
  { href := ("https://x.com/article-one").toList,
    resolvedTitle := ("A Great Long Article Title").toList, nextParagraph := [] }

/-- The parse of `https://x.com/a/?utm_source=nl`. -/
def sampleURL : GoURL :=
  { scheme := ("https").toList, host := ("x.com").toList,
    path := ("/a/").toList, rawQuery := ("utm_source=nl").toList,
    forceQuery := false, fragment := [] }

/-! ## Theorems -/

/-- C1: issuing `CancelScan()` while the scan task iterates a folder of 25
messages (signal posted after 3 processed messages) stops the scan within 10
messages of the signal, processes no further folders, records the
cancellation message in `last_error` and clears the running flag — but the
progress status observable after the scan task has exited is `"completed"`,
not `"cancelled"`: the deferred cleanup of `performScan` unconditionally
overwrites the status the cancellation branch had set. -/
theorem c1_cancel_status_overwritten :
    (performScan true "" cancelFolders (some 3) 7 runningState).scanStatus.lastError
      = "Varredura cancelada pelo usuário" ∧
    (performScan true "" cancelFolders (some 3) 7 runningState).scanProgress.emailsProcessed = 10 ∧
    (performScan true "" cancelFolders (some 3) 7 runningState).scanProgress.emailsTotal = 25 ∧
    (performScan true "" cancelFolders (some 3) 7 runningState).isScanning = false ∧
    (performScan true "" cancelFolders (some 3) 7 runningState).scanStatus.isRunning = false ∧
    (performScan true "" cancelFolders (some 3) 7 runningState).scanProgress.status
      = "completed" := by
  decide

/-- C2: when connecting to the mailbox fails, the error is recorded in
`last_error`, the running flag is cleared and no folder is processed — but
the progress status observable after the scan task has exited is
`"completed"`, not `"error"`: the deferred cleanup of `performScan`
unconditionally overwrites the status the error branch had set. -/
theorem c2_connect_failure_status_overwritten :
    (performScan false "dial tcp: i/o timeout" cancelFolders none 7 runningState).scanStatus.lastError
      = "Falha ao conectar IMAP: dial tcp: i/o timeout" ∧
    (performScan false "dial tcp: i/o timeout" cancelFolders none 7 runningState).isScanning = false ∧
    (performScan false "dial tcp: i/o timeout" cancelFolders none 7 runningState).scanStatus.isRunning = false ∧
    (performScan false "dial tcp: i/o timeout" cancelFolders none 7 runningState).scanProgress.foldersProcessed = 0 ∧
    (performScan false "dial tcp: i/o timeout" cancelFolders none 7 runningState).scanProgress.emailsProcessed = 0 ∧
    (performScan false "dial tcp: i/o timeout" cancelFolders none 7 runningState).dbArticles = [] ∧
    (performScan false "dial tcp: i/o timeout" cancelFolders none 7 runningState).scanProgress.status
      = "completed" := by
  decide

/-- C3: calling `startScan` while a scan is running answers the
"already running" conflict, leaves the whole shared state (including
`ScanProgress`) untouched, and spawns no second scan task; the flag is
tested and set in one atomic step under the shared lock. -/
theorem c3_single_flight (st : ServerState) (authOk : Bool) (h : st.isScanning = true) :
    startScan authOk st
      = ({ code := 409, body := "varredura já em andamento" }, st, false) := by
  simp [startScan, h]

/-- Witness for `c3_single_flight` at a concrete running state. -/
theorem c3_single_flight_witness :
    runningState.isScanning = true ∧
    startScan true runningState
      = ({ code := 409, body := "varredura já em andamento" }, runningState, false) :=
  ⟨rfl, c3_single_flight runningState true rfl⟩

/-- C5: the two reference examples of URL normalization: tracking parameter
removed, remaining parameter kept, fragment dropped; and tracking parameter
removed, empty query dropped, trailing slash stripped. -/
theorem c5_normalize_reference_examples :
    (parseURL (("https://x.com/a?utm_source=nl&id=5#frag").toList)).map normalizeURL
      = some (("https://x.com/a?id=5").toList) ∧
    (parseURL (("https://x.com/a/?utm_source=nl").toList)).map normalizeURL
      = some (("https://x.com/a").toList) := by
  decide

/-- C9 counterexample: calling the cancel handler when no scan is running is
*not* a no-op success — it answers HTTP 400 with an error body. -/
theorem c9_cancel_idle_is_error :
    cancelScanHandler idleState
      = ({ code := 400, body := "nenhuma varredura em andamento" }, idleState) := by
  decide

/-- C9 as amended: cancelling with no scan running returns a
"nothing running" error (HTTP 400) and changes nothing; a second cancel
while a signal is already pending succeeds as a no-op — the state is
unchanged, so the signal is never queued twice. -/
theorem c9_cancel_semantics (st : ServerState) :
    (st.isScanning = false →
      cancelScanHandler st
        = ({ code := 400, body := "nenhuma varredura em andamento" }, st)) ∧
    (st.isScanning = true → st.cancelPending = true →
      cancelScanHandler st
        = ({ code := 200, body := "cancelamento solicitado" }, st)) := by
  constructor
  · intro h
    simp [cancelScanHandler, h]
  · intro h h2
    simp [cancelScanHandler, h, h2]

/-- Witness for `c9_cancel_semantics` at concrete states. -/
theorem c9_cancel_semantics_witness :
    (cancelScanHandler idleState
      = ({ code := 400, body := "nenhuma varredura em andamento" }, idleState)) ∧
    (cancelScanHandler runningPendingState
      = ({ code := 200, body := "cancelamento solicitado" }, runningPendingState)) :=
  ⟨(c9_cancel_semantics idleState).1 rfl,
   (c9_cancel_semantics runningPendingState).2 rfl rfl⟩

/-- A valid title is at least 20 bytes long. -/
theorem isValidTitle_len {t : Str} (h : isValidTitle t = true) : 20 ≤ goLen t := by
  simp only [isValidTitle] at h
  split at h
  · exact absurd h (by simp)
  · omega

/-- A valid title starts with an uppercase letter. -/
theorem isValidTitle_head {c : Char} {t : Str} (h : isValidTitle (c :: t) = true) :
    goIsUpper c = true := by
  simp only [isValidTitle] at h
  split at h
  · exact absurd h (by simp)
  · exact h

/-- A valid title is nonempty. -/
theorem isValidTitle_ne_nil {t : Str} (h : isValidTitle t = true) : t ≠ [] := by
  intro he
  have := isValidTitle_len h
  subst he
  simp [goLen] at this

/-- Every link the extraction loop emits has a nonempty title. -/
theorem extractLinksGo_title_ne_nil :
    ∀ (anchors : List Anchor) (seen : List Str) (pos : Nat),
      ∀ l ∈ extractLinksGo anchors seen pos, l.title ≠ [] := by
  intro anchors
  induction anchors with
  | nil =>
    intro seen pos l hl
    simp [extractLinksGo] at hl
  | cons a rest ih =>
    intro seen pos l hl
    simp only [extractLinksGo] at hl
    split at hl
    · exact ih _ _ _ hl
    · split at hl
      · exact ih _ _ _ hl
      · split at hl
        · exact ih _ _ _ hl
        · rename_i u _
          split at hl
          · exact ih _ _ _ hl
          · split at hl
            · exact ih _ _ _ hl
            · split at hl
              · exact ih _ _ _ hl
              · rename_i hvalid
                have hv : isValidTitle a.resolvedTitle = true := not_not.mp hvalid
                rcases List.mem_cons.mp hl with he | htl
                · subst he
                  show (if 200 < goLen a.resolvedTitle then
                    byteTake 200 a.resolvedTitle ++ ("...").toList
                    else a.resolvedTitle) ≠ []
                  split
                  · simp
                  · exact isValidTitle_ne_nil hv
                · exact ih _ _ _ htl

/-- C6 counterexample: a title of exactly 19 characters, each a 2-byte
uppercase letter, is *accepted* by the title gate — `len` in Go counts
bytes, not characters. -/
theorem c6_nineteen_char_title_accepted :
    isValidTitle (List.replicate 19 'É') = true ∧
    (List.replicate 19 'É').length = 19 := by
  decide

/-- C6 as amended: the gate requires at least 20 *bytes* (UTF-8) and an
uppercase first character; on ASCII titles this coincides with the claim's
character counts (19 rejected, 20-lowercase rejected, 20-uppercase
accepted); rejected anchors are dropped entirely — every emitted link has a
nonempty title. -/
theorem c6_title_gate :
    (∀ t : Str, isValidTitle t = true → 20 ≤ goLen t) ∧
    (∀ (c : Char) (t : Str), isValidTitle (c :: t) = true → goIsUpper c = true) ∧
    isValidTitle (("Nineteen chars here").toList) = false ∧
    isValidTitle (("twenty characters ab").toList) = false ∧
    isValidTitle (("Twenty characters ab").toList) = true ∧
    (∀ (anchors : List Anchor), ∀ l ∈ extractLinks anchors, l.title ≠ []) := by
  refine ⟨fun t h => isValidTitle_len h, fun c t h => isValidTitle_head h,
    by decide, by decide, by decide, fun anchors l hl => ?_⟩
  exact extractLinksGo_title_ne_nil anchors [] 0 l hl

/-- Witness for the quantified parts of `c6_title_gate`. -/
theorem c6_title_gate_witness :
    (isValidTitle (("Twenty characters ab").toList) = true ∧
      20 ≤ goLen (("Twenty characters ab").toList)) ∧
    ((⟨("https://x.com/article-one").toList, ("A Great Long Article Title").toList,
        [], ("x.com").toList, 0⟩ : EmailLink) ∈ extractLinks [goodTitleAnchor] ∧
      (⟨("https://x.com/article-one").toList, ("A Great Long Article Title").toList,
        [], ("x.com").toList, 0⟩ : EmailLink).title ≠ []) :=
  ⟨⟨by decide, c6_title_gate.1 (("Twenty characters ab").toList) (by decide)⟩,
   ⟨by decide, c6_title_gate.2.2.2.2.2 [goodTitleAnchor] _ (by decide)⟩⟩

/-- A string containing a character contains it as a one-character
substring. -/
theorem goContains_singleton {c : Char} {s : Str} (h : c ∈ s) :
    goContains s (c :: []) = true := by
  induction s with
  | nil => simp at h
  | cons x xs ih =>
    rcases List.mem_cons.mp h with he | hm
    · subst he
      simp [goContains, goStartsWith]
    · simp [goContains, goStartsWith, ih hm]

/-- Lowercasing keeps `#`. -/
theorem mem_goToLower_hash {s : Str} (h : '#' ∈ s) : '#' ∈ goToLower s := by
  simp only [goToLower]
  exact List.mem_map.mpr ⟨'#', h, by decide⟩

/-- C7 as amended: a `#` *anywhere* in the href — not only at its start —
makes `isIgnorableLink` discard the anchor at the filter stage, because the
code's ignore-list also carries the bare substring `"#"`; fragment-carrying
hrefs therefore never reach the normalization stage. -/
theorem c7_fragment_always_filtered (href : Str) (h : '#' ∈ href) :
    isIgnorableLink href = true := by
  have hcont : goContains (goToLower href) ('#' :: []) = true :=
    goContains_singleton (mem_goToLower_hash h)
  have hany : (ignoredPatterns.any fun pat => goContains (goToLower href) pat) = true :=
    List.any_eq_true.mpr ⟨'#' :: [], by decide, hcont⟩
  simp only [isIgnorableLink]
  split
  · rfl
  · split
    · rfl
    · exact hany

/-- Witness for `c7_fragment_always_filtered`. -/
theorem c7_fragment_always_filtered_witness :
    '#' ∈ fragHref ∧ isIgnorableLink fragHref = true :=
  ⟨by decide, c7_fragment_always_filtered fragHref (by decide)⟩

/-- C7 counterexample: an http(s) href of length ≥ 10 that does not begin
with `#` and contains none of the spec's ignore-list substrings (the code's
list without the bare `"#"` entry) is nevertheless discarded at the filter
stage when a fragment appears later in the href, and the anchor never
reaches normalization, dedup or title resolution. -/
theorem c7_fragment_filter_counterexample :
    goStartsWith (goToLower fragHref) ('#' :: []) = false ∧
    10 ≤ goLen fragHref ∧
    (parseURL fragHref).map GoURL.scheme = some (("https").toList) ∧
    ((ignoredPatterns.filter fun p => p ≠ '#' :: []).all
      fun p => !goContains (goToLower fragHref) p) = true ∧
    isIgnorableLink fragHref = true ∧
    extractLinks
      [{ href := fragHref,
         resolvedTitle := ("A Sufficiently Long Valid Title").toList,
         nextParagraph := [] }] = [] := by
  decide

/-- Invariant of the extraction loop: no emitted canonical URL lies in the
incoming seen-set, and the emitted URLs are pairwise distinct. -/
theorem extractLinksGo_nodup :
    ∀ (anchors : List Anchor) (seen : List Str) (pos : Nat),
      (∀ l ∈ extractLinksGo anchors seen pos, l.url ∉ seen) ∧
      ((extractLinksGo anchors seen pos).map EmailLink.url).Nodup := by
  intro anchors
  induction anchors with
  | nil =>
    intro seen pos
    refine ⟨fun l hl => ?_, ?_⟩
    · simp [extractLinksGo] at hl
    · simp [extractLinksGo]
  | cons a rest ih =>
    intro seen pos
    simp only [extractLinksGo]
    split
    · exact ih seen pos
    split
    · exact ih seen pos
    split
    · exact ih seen pos
    rename_i u _
    split
    · exact ih seen pos
    split
    · exact ih seen pos
    rename_i hnotseen
    split
    · refine ⟨fun l hl => ?_, (ih _ _).2⟩
      have := (ih (normalizeURL u :: seen) pos).1 l hl
      intro hs
      exact this (List.mem_cons_of_mem _ hs)
    · obtain ⟨h1, h2⟩ := ih (normalizeURL u :: seen) (pos + 1)
      refine ⟨fun l hl => ?_, ?_⟩
      · rcases List.mem_cons.mp hl with he | htl
        · subst he
          exact hnotseen
        · intro hs
          exact h1 l htl (List.mem_cons_of_mem _ hs)
      · rw [List.map_cons]
        refine List.Nodup.cons ?_ h2
        intro hmem
        rcases List.mem_map.mp hmem with ⟨l, hl, hurl⟩
        exact h1 l hl (hurl ▸ List.mem_cons_self _ _)

/-- The emitted positions enumerate consecutively from the initial
counter — document order is preserved. -/
theorem extractLinksGo_positions :
    ∀ (anchors : List Anchor) (seen : List Str) (pos : Nat),
      (extractLinksGo anchors seen pos).map EmailLink.position
        = List.range' pos (extractLinksGo anchors seen pos).length := by
  intro anchors
  induction anchors with
  | nil =>
    intro seen pos
    simp [extractLinksGo]
  | cons a rest ih =>
    intro seen pos
    simp only [extractLinksGo]
    split
    · exact ih seen pos
    split
    · exact ih seen pos
    split
    · exact ih seen pos
    split
    · exact ih seen pos
    split
    · exact ih seen pos
    split
    · exact ih _ pos
    · rw [List.map_cons, List.length_cons, List.range'_succ]
      exact congrArg _ (ih _ (pos + 1))

/-- C8 counterexample: the second anchor carries the same canonical URL as a
first anchor that failed the title gate; the claim says it is not blocked,
but the extraction emits nothing, because the seen-set is updated *before*
the title gate. -/
theorem c8_seen_but_not_emitted_blocks :
    extractLinks [shortTitleAnchor, goodTitleAnchor] = [] ∧
    extractLinks [goodTitleAnchor]
      = [⟨("https://x.com/article-one").toList,
          ("A Great Long Article Title").toList, [], ("x.com").toList, 0⟩] := by
  decide

/-- C8 as amended: within one extraction call an anchor is skipped at the
dedup stage whenever its canonical URL was already *seen* earlier in the
call — even when the earlier occurrence was dropped by the title gate and
never emitted.  Consequently emitted canonical URLs are pairwise distinct
and emitted links keep document order (positions 0,1,2,…). -/
theorem c8_dedup_per_call :
    (∀ anchors : List Anchor, ((extractLinks anchors).map EmailLink.url).Nodup) ∧
    (∀ anchors : List Anchor,
      (extractLinks anchors).map EmailLink.position
        = List.range (extractLinks anchors).length) := by
  constructor
  · intro anchors
    exact (extractLinksGo_nodup anchors [] 0).2
  · intro anchors
    rw [List.range_eq_range']
    exact extractLinksGo_positions anchors [] 0

/-- `IndexArticle` preserves distinctness of stored URLs: a duplicate URL is
skipped, a fresh URL is appended. -/
theorem IndexArticle_nodup {db : List Article} {a : Article}
    (h : (db.map Article.url).Nodup) :
    ((IndexArticle db a).map Article.url).Nodup := by
  simp only [IndexArticle]
  split
  · exact h
  · rename_i hany
    rw [List.map_append, List.map_cons, List.map_nil]
    refine List.Nodup.append h (List.nodup_singleton _) ?_
    intro x hx hxa
    rcases List.mem_map.mp hx with ⟨b, hb, hurl⟩
    rcases List.mem_singleton.mp hxa with rfl
    exact hany (List.any_eq_true.mpr ⟨b, hb, by simpa using hurl⟩)

/-- Indexing every link of a message preserves URL distinctness. -/
theorem foldl_IndexArticle_nodup (msg : ScanMsg) :
    ∀ (links : List ScanLink) (db : List Article),
      (db.map Article.url).Nodup →
      ((links.foldl (fun d l => IndexArticle d (mkArticle msg l)) db).map Article.url).Nodup := by
  intro links
  induction links with
  | nil => intro db h; exact h
  | cons l ls ih => intro db h; exact ih _ (IndexArticle_nodup h)

/-- The message loop preserves URL distinctness of the article table. -/
theorem scanMsgs_nodup (ca : Option Nat) :
    ∀ (msgs : List ScanMsg) (j : Nat) (acc : ScanAcc),
      (acc.st.dbArticles.map Article.url).Nodup →
      ((scanMsgs ca msgs j acc).1.st.dbArticles.map Article.url).Nodup := by
  intro msgs
  induction msgs with
  | nil => intro j acc h; exact h
  | cons m rest ih =>
    intro j acc h
    simp only [scanMsgs]
    split
    · exact h
    · exact ih _ _ (foldl_IndexArticle_nodup m m.links acc.st.dbArticles h)

/-- The folder loop preserves URL distinctness of the article table. -/
theorem scanFolders_nodup (ca : Option Nat) (total : Nat) :
    ∀ (folders : List FolderInput) (i : Nat) (acc : ScanAcc),
      (acc.st.dbArticles.map Article.url).Nodup →
      ((scanFolders ca total folders i acc).1.st.dbArticles.map Article.url).Nodup := by
  intro folders
  induction folders with
  | nil => intro i acc h; exact h
  | cons f rest ih =>
    intro i acc h
    simp only [scanFolders]
    split
    · exact h
    · split
      · exact ih _ _ h
      · split
        · exact scanMsgs_nodup ca _ 0 _ h
        · exact ih _ _ (scanMsgs_nodup ca _ 0 _ h)

/-- `performScan` preserves URL distinctness of the article table. -/
theorem performScan_nodup (connOk : Bool) (connErr : String)
    (folders : List FolderInput) (cancelAt : Option Nat) (now : Nat)
    (st : ServerState) (h : (st.dbArticles.map Article.url).Nodup) :
    ((performScan connOk connErr folders cancelAt now st).dbArticles.map Article.url).Nodup := by
  simp only [performScan]
  split
  · exact h
  · split
    · exact scanFolders_nodup _ _ folders 0 _ h
    · exact scanFolders_nodup _ _ folders 0 _ h

/-- C4 counterexample: the same canonical URL extracted from two messages of
one scan is stored exactly once, but `articles_found` counts it *twice* —
`INSERT OR IGNORE` returns no error on the duplicate, and the counter
increments on every error-free insert call, contradicting "counted only once
per successful insert". -/
theorem c4_duplicate_counted_again :
    (performScan true "" dupFolders none 7 runningState).dbArticles.length = 1 ∧
    (performScan true "" dupFolders none 7 runningState).scanProgress.articlesFound = 2 := by
  decide

/-- C4 as amended: insertion is insert-if-absent keyed on URL — a table with
pairwise-distinct URLs keeps pairwise-distinct URLs through any scan, so the
same canonical URL is stored exactly once across one or many scans; but
`articles_found` counts every error-free insert *call*, so a duplicate URL
is skipped in storage yet still counted again. -/
theorem c4_insert_if_absent :
    (∀ (connOk : Bool) (connErr : String) (folders : List FolderInput)
        (cancelAt : Option Nat) (now : Nat) (st : ServerState),
      (st.dbArticles.map Article.url).Nodup →
      ((performScan connOk connErr folders cancelAt now st).dbArticles.map Article.url).Nodup) ∧
    ((performScan true "" dupFolders none 7 runningState).dbArticles.length = 1 ∧
      (performScan true "" dupFolders none 7 runningState).scanProgress.articlesFound = 2) :=
  ⟨fun a b c d e f h => performScan_nodup a b c d e f h, by decide, by decide⟩

/-- Witness for `c4_insert_if_absent` at a concrete scan. -/
theorem c4_insert_if_absent_witness :
    (runningState.dbArticles.map Article.url).Nodup ∧
    ((performScan true "" dupFolders none 7 runningState).dbArticles.map Article.url).Nodup :=
  ⟨by decide, c4_insert_if_absent.1 true "" dupFolders none 7 runningState (by decide)⟩

/-! ### Splitting lemmas for the URL model -/

/-- A character rejected by a predicate that holds everywhere on `l` is not
in `l`. -/
theorem not_mem_of_all_pred {p : Char → Bool} {l : Str} {c : Char}
    (h : l.all p = true) (hc : p c = false) : c ∉ l := by
  intro hm
  have h2 := List.all_eq_true.mp h c hm
  rw [hc] at h2
  exact Bool.false_ne_true h2

/-- `splitFirst` misses: no occurrence yields `none`. -/
theorem splitFirst_of_not_mem {c : Char} : ∀ {l : Str}, c ∉ l → splitFirst c l = none := by
  intro l
  induction l with
  | nil => intro h; rfl
  | cons x xs ih =>
    intro h
    have hx : ¬ x = c := fun he => h (he ▸ List.mem_cons_self x xs)
    have hxs : c ∉ xs := fun hm => h (List.mem_cons_of_mem x hm)
    simp only [splitFirst, if_neg hx, ih hxs]

/-- `splitFirst` hits the first occurrence after a clean prelude. -/
theorem splitFirst_append_cons {c : Char} :
    ∀ {xs : Str} (ys : Str), c ∉ xs → splitFirst c (xs ++ c :: ys) = some (xs, ys) := by
  intro xs
  induction xs with
  | nil => intro ys _; simp [splitFirst]
  | cons x xs ih =>
    intro ys h
    have hx : ¬ x = c := fun he => h (he ▸ List.mem_cons_self x xs)
    have hxs : c ∉ xs := fun hm => h (List.mem_cons_of_mem x hm)
    rw [List.cons_append]
    simp only [splitFirst, if_neg hx]
    rw [ih ys hxs]

/-- Characterization of a successful `splitFirst`. -/
theorem splitFirst_eq_some {c : Char} :
    ∀ {l a b : Str}, splitFirst c l = some (a, b) → l = a ++ c :: b ∧ c ∉ a := by
  intro l
  induction l with
  | nil => intro a b h; simp [splitFirst] at h
  | cons x xs ih =>
    intro a b h
    simp only [splitFirst] at h
    by_cases hx : x = c
    · rw [if_pos hx] at h
      simp only [Option.some.injEq, Prod.mk.injEq] at h
      obtain ⟨ha, hb⟩ := h
      subst hx
      rw [← ha, ← hb]
      exact ⟨rfl, List.not_mem_nil _⟩
    · rw [if_neg hx] at h
      cases hs : splitFirst c xs with
      | none => rw [hs] at h; exact absurd h (by simp)
      | some p =>
        rw [hs] at h
        obtain ⟨a', b'⟩ := p
        have h2 := Option.some.inj h
        have ha : a = x :: a' := (congrArg Prod.fst h2).symm
        have hb : b = b' := (congrArg Prod.snd h2).symm
        obtain ⟨hxs, hna⟩ := ih hs
        subst ha hb
        constructor
        · rw [List.cons_append, ← hxs]
        · intro hm
          rcases List.mem_cons.mp hm with he | hm2
          · exact hx he.symm
          · exact hna hm2

/-- A failed `splitFirst` means the separator is absent. -/
theorem splitFirst_eq_none {c : Char} :
    ∀ {l : Str}, splitFirst c l = none → c ∉ l := by
  intro l
  induction l with
  | nil => intro _ h; simp at h
  | cons x xs ih =>
    intro h
    simp only [splitFirst] at h
    by_cases hx : x = c
    · rw [if_pos hx] at h; exact absurd h (by simp)
    · rw [if_neg hx] at h
      cases hs : splitFirst c xs with
      | none =>
        intro hm
        rcases List.mem_cons.mp hm with he | hm2
        · exact hx he.symm
        · exact ih hs hm2
      | some p => rw [hs] at h; exact absurd h (by simp)

/-- `splitOn` never yields the empty segment list. -/
theorem splitOn_ne_nil (c : Char) : ∀ (l : Str), splitOn c l ≠ [] := by
  intro l
  induction l with
  | nil => simp [splitOn]
  | cons x xs ih =>
    simp only [splitOn]
    split
    · simp
    · cases hs : splitOn c xs with
      | nil => exact absurd hs ih
      | cons s rest => simp [hs]

/-- `splitOn` with an absent separator returns the list whole. -/
theorem splitOn_of_not_mem {c : Char} : ∀ {l : Str}, c ∉ l → splitOn c l = [l] := by
  intro l
  induction l with
  | nil => intro _; rfl
  | cons x xs ih =>
    intro h
    have hx : ¬ x = c := fun he => h (he ▸ List.mem_cons_self x xs)
    have hxs : c ∉ xs := fun hm => h (List.mem_cons_of_mem x hm)
    simp only [splitOn, if_neg hx, ih hxs]

/-- `splitOn` peels one clean segment at a time. -/
theorem splitOn_append_cons {c : Char} :
    ∀ {s : Str} (t : Str), c ∉ s → splitOn c (s ++ c :: t) = s :: splitOn c t := by
  intro s
  induction s with
  | nil => intro t _; simp [splitOn]
  | cons x s ih =>
    intro t h
    have hx : ¬ x = c := fun he => h (he ▸ List.mem_cons_self x s)
    have hs : c ∉ s := fun hm => h (List.mem_cons_of_mem x hm)
    rw [List.cons_append]
    simp only [splitOn, if_neg hx]
    rw [ih t hs]

/-- Characters of a segment come from the split list. -/
theorem mem_of_mem_splitOn {c : Char} :
    ∀ {l seg : Str}, seg ∈ splitOn c l → ∀ x ∈ seg, x ∈ l := by
  intro l
  induction l with
  | nil =>
    intro seg hseg x hx
    simp only [splitOn, List.mem_singleton] at hseg
    subst hseg
    simp at hx
  | cons y ys ih =>
    intro seg hseg x hx
    simp only [splitOn] at hseg
    by_cases hy : y = c
    · rw [if_pos hy] at hseg
      rcases List.mem_cons.mp hseg with he | hm
      · subst he; simp at hx
      · exact List.mem_cons_of_mem y (ih hm x hx)
    · rw [if_neg hy] at hseg
      cases hs : splitOn c ys with
      | nil => exact absurd hs (splitOn_ne_nil c ys)
      | cons s rest =>
        rw [hs] at hseg
        rcases List.mem_cons.mp hseg with he | hm
        · subst he
          rcases List.mem_cons.mp hx with he2 | hm2
          · exact he2 ▸ List.mem_cons_self y ys
          · have : s ∈ splitOn c ys := hs ▸ List.mem_cons_self s rest
            exact List.mem_cons_of_mem y (ih this x hm2)
        · have : seg ∈ splitOn c ys := hs ▸ List.mem_cons_of_mem s hm
          exact List.mem_cons_of_mem y (ih this x hx)

/-- A segment never holds the separator. -/
theorem sep_not_mem_of_mem_splitOn {c : Char} :
    ∀ {l seg : Str}, seg ∈ splitOn c l → c ∉ seg := by
  intro l
  induction l with
  | nil =>
    intro seg hseg
    simp only [splitOn, List.mem_singleton] at hseg
    subst hseg
    simp
  | cons y ys ih =>
    intro seg hseg
    simp only [splitOn] at hseg
    by_cases hy : y = c
    · rw [if_pos hy] at hseg
      rcases List.mem_cons.mp hseg with he | hm
      · subst he; simp
      · exact ih hm
    · rw [if_neg hy] at hseg
      cases hs : splitOn c ys with
      | nil => exact absurd hs (splitOn_ne_nil c ys)
      | cons s rest =>
        rw [hs] at hseg
        rcases List.mem_cons.mp hseg with he | hm
        · subst he
          intro hmem
          rcases List.mem_cons.mp hmem with he2 | hm2
          · exact hy he2.symm
          · exact ih (hs ▸ List.mem_cons_self s rest) hm2
        · exact ih (hs ▸ List.mem_cons_of_mem s hm)

/-! ### Order lemmas for the query-encoding sort -/

/-- `cutEq` recovers the two halves of a well-shaped segment. -/
theorem cutEq_append {k v : Str} (h : ('=') ∉ k) : cutEq (k ++ '=' :: v) = (k, v) := by
  simp only [cutEq, splitFirst_append_cons v h]

/-- `ltK` is asymmetric. -/
theorem ltK_asymm : ∀ {a b : Str}, ltK a b = true → ltK b a = false := by
  intro a
  induction a with
  | nil =>
    intro b h
    cases b with
    | nil => exact absurd h (by simp [ltK])
    | cons y ys => rfl
  | cons x xs ih =>
    intro b h
    cases b with
    | nil => exact absurd h (by simp [ltK])
    | cons y ys =>
      simp only [ltK] at h ⊢
      rcases Nat.lt_trichotomy x.toNat y.toNat with hlt | heq | hgt
      · rw [if_neg (Nat.lt_asymm hlt), if_pos hlt]
      · rw [if_neg (heq ▸ Nat.lt_irrefl _), if_neg (heq ▸ Nat.lt_irrefl _)] at h ⊢
        exact ih h
      · rw [if_neg (Nat.lt_asymm hgt), if_pos hgt] at h
        exact absurd h (by simp)

/-- `ltK` is transitive. -/
theorem ltK_trans : ∀ {a b c : Str}, ltK a b = true → ltK b c = true → ltK a c = true := by
  intro a
  induction a with
  | nil =>
    intro b c h1 h2
    cases b with
    | nil => exact absurd h1 (by simp [ltK])
    | cons y ys =>
      cases c with
      | nil => exact absurd h2 (by simp [ltK])
      | cons z zs => simp [ltK]
  | cons x xs ih =>
    intro b c h1 h2
    cases b with
    | nil => exact absurd h1 (by simp [ltK])
    | cons y ys =>
      cases c with
      | nil => exact absurd h2 (by simp [ltK])
      | cons z zs =>
        simp only [ltK] at h1 h2 ⊢
        rcases Nat.lt_trichotomy x.toNat y.toNat with hxy | hxy | hxy
        · rcases Nat.lt_trichotomy y.toNat z.toNat with hyz | hyz | hyz
          · rw [if_pos (Nat.lt_trans hxy hyz)]
          · rw [if_pos (hyz ▸ hxy)]
          · rw [if_neg (Nat.lt_asymm hyz), if_pos hyz] at h2
            exact absurd h2 (by simp)
        · rw [if_neg (hxy ▸ Nat.lt_irrefl _), if_neg (hxy ▸ Nat.lt_irrefl _)] at h1
          rcases Nat.lt_trichotomy y.toNat z.toNat with hyz | hyz | hyz
          · rw [if_pos (hxy ▸ hyz)]
          · rw [if_neg (hyz ▸ hxy ▸ Nat.lt_irrefl _), if_neg (hyz ▸ hxy ▸ Nat.lt_irrefl _)]
            rw [if_neg (hyz ▸ Nat.lt_irrefl _), if_neg (hyz ▸ Nat.lt_irrefl _)] at h2
            exact ih h1 h2
          · rw [if_neg (Nat.lt_asymm hyz), if_pos hyz] at h2
            exact absurd h2 (by simp)
        · rw [if_neg (Nat.lt_asymm hxy), if_pos hxy] at h1
          exact absurd h1 (by simp)

/-- `ltK` is connected: mutually non-smaller strings are equal. -/
theorem ltK_connex : ∀ {a b : Str}, ltK a b = false → ltK b a = false → a = b := by
  intro a
  induction a with
  | nil =>
    intro b h1 h2
    cases b with
    | nil => rfl
    | cons y ys => exact absurd h1 (by simp [ltK])
  | cons x xs ih =>
    intro b h1 h2
    cases b with
    | nil => exact absurd h2 (by simp [ltK])
    | cons y ys =>
      simp only [ltK] at h1 h2
      rcases Nat.lt_trichotomy x.toNat y.toNat with hxy | hxy | hxy
      · rw [if_pos hxy] at h1
        exact absurd h1 (by simp)
      · rw [if_neg (hxy ▸ Nat.lt_irrefl _), if_neg (hxy ▸ Nat.lt_irrefl _)] at h1 h2
        have hx : x = y := Char.ext (UInt32.toNat.inj hxy)
        rw [hx, ih h1 h2]
      · rw [if_pos hxy] at h2
        exact absurd h2 (by simp)

instance : IsTotal (Str × Str) keyLe :=
  ⟨fun p q => by
    cases hb : ltK p.1 q.1 with
    | false => exact Or.inr hb
    | true => exact Or.inl (ltK_asymm hb)⟩

instance : IsTrans (Str × Str) keyLe :=
  ⟨fun p q r h1 h2 => by
    simp only [keyLe] at h1 h2 ⊢
    cases hb : ltK r.1 p.1 with
    | false => rfl
    | true =>
      cases hc : ltK p.1 q.1 with
      | true =>
        rw [ltK_trans hb hc] at h2
        exact absurd h2 (by simp)
      | false =>
        rw [ltK_connex hc h1] at hb
        rw [hb] at h2
        exact absurd h2 (by simp)⟩

/-- The encode sort permutes its input. -/
theorem sortPairs_perm (q : List (Str × Str)) : List.Perm (sortPairs q) q :=
  List.perm_insertionSort keyLe q

/-- The encode sort sorts. -/
theorem sortPairs_sorted (q : List (Str × Str)) : List.Sorted keyLe (sortPairs q) :=
  List.sorted_insertionSort keyLe q

/-- The encode sort is idempotent. -/
theorem sortPairs_idem (q : List (Str × Str)) : sortPairs (sortPairs q) = sortPairs q :=
  List.Sorted.insertionSort_eq (sortPairs_sorted q)

/-! ### Query parse/encode lemmas -/

/-- A query character that is neither `&` nor `=` is a key/value
character. -/
theorem isQChar_of_queryChar {c : Char} (h : isQueryChar c = true)
    (h1 : ¬ c = '&') (h2 : ¬ c = '=') : isQChar c = true := by
  simp only [isQueryChar, Bool.or_eq_true, decide_eq_true_eq] at h
  rcases h with (h | h) | h
  · exact h
  · exact absurd h h1
  · exact absurd h h2

/-- A key/value character is a query character. -/
theorem isQueryChar_of_isQChar {c : Char} (h : isQChar c = true) :
    isQueryChar c = true := by
  simp [isQueryChar, h]

/-- Pairs produced by `parseQuery` from a well-formed raw query have
key/value characters only. -/
theorem parseQuery_pairsOk {rq : Str} (hall : rq.all isQueryChar = true)
    (hshape : queryShapeOk rq = true) :
    ∀ p ∈ parseQuery rq, p.1.all isQChar = true ∧ p.2.all isQChar = true := by
  intro p hp
  simp only [parseQuery] at hp
  rcases List.mem_filterMap.mp hp with ⟨seg, hseg, hf⟩
  split at hf
  · exact absurd hf (by simp)
  · rename_i hcond
    have hpe : p = cutEq seg := (Option.some.inj hf).symm
    have hsegall : seg.all isQueryChar = true :=
      List.all_eq_true.mpr fun x hx =>
        List.all_eq_true.mp hall x (mem_of_mem_splitOn hseg x hx)
    have hnoamp : ('&') ∉ seg := sep_not_mem_of_mem_splitOn hseg
    have hcount : (seg.filter fun c => c = '=').length ≤ 1 := by
      have h2 := List.all_eq_true.mp hshape seg hseg
      exact of_decide_eq_true h2
    cases hsp : splitFirst '=' seg with
    | none =>
      have hne : ('=') ∉ seg := splitFirst_eq_none hsp
      have : cutEq seg = (seg, []) := by simp [cutEq, hsp]
      rw [hpe, this]
      refine ⟨List.all_eq_true.mpr fun x hx => ?_, by simp⟩
      exact isQChar_of_queryChar (List.all_eq_true.mp hsegall x hx)
        (fun he => hnoamp (he ▸ hx)) (fun he => hne (he ▸ hx))
    | some kv =>
      obtain ⟨k, v⟩ := kv
      obtain ⟨hsegeq, hknoeq⟩ := splitFirst_eq_some hsp
      have : cutEq seg = (k, v) := by simp [cutEq, hsp]
      rw [hpe, this]
      have hvnoeq : ('=') ∉ v := by
        intro hv
        have hkfil : k.filter (fun c => c = '=') = [] :=
          List.filter_eq_nil_iff.mpr fun a ha hpa =>
            hknoeq ((of_decide_eq_true hpa) ▸ ha)
        rw [hsegeq, List.filter_append, hkfil] at hcount
        simp only [List.nil_append, List.filter_cons] at hcount
        rw [if_pos (by simp)] at hcount
        have hvfil : ('=') ∈ v.filter (fun c => c = '=') :=
          List.mem_filter.mpr ⟨hv, by simp⟩
        have : 0 < (v.filter fun c => c = '=').length := List.length_pos.mpr
          (fun he => by rw [he] at hvfil; simp at hvfil)
        simp only [List.length_cons] at hcount
        omega
      constructor
      · refine List.all_eq_true.mpr fun x hx => ?_
        have hxseg : x ∈ seg := hsegeq ▸ List.mem_append_left _ hx
        exact isQChar_of_queryChar (List.all_eq_true.mp hsegall x hxseg)
          (fun he => hnoamp (he ▸ hxseg)) (fun he => hknoeq (he ▸ hx))
      · refine List.all_eq_true.mpr fun x hx => ?_
        have hxseg : x ∈ seg := hsegeq ▸ List.mem_append_right _ (List.mem_cons_of_mem _ hx)
        exact isQChar_of_queryChar (List.all_eq_true.mp hsegall x hxseg)
          (fun he => hnoamp (he ▸ hxseg)) (fun he => hvnoeq (he ▸ hx))

/-- Membership through `delTracking`. -/
theorem mem_delTracking {q : List (Str × Str)} {p : Str × Str}
    (h : p ∈ delTracking q) : p ∈ q ∧ p.1 ∉ trackingParams := by
  simp only [delTracking, List.mem_filter, decide_eq_true_eq] at h
  exact h

/-- Membership through `sortPairs`. -/
theorem mem_sortPairs {q : List (Str × Str)} {p : Str × Str}
    (h : p ∈ sortPairs q) : p ∈ q :=
  (sortPairs_perm q).mem_iff.mp h

/-- Deleting tracking keys from a list that has none is the identity. -/
theorem delTracking_eq_self {q : List (Str × Str)}
    (h : ∀ p ∈ q, p.1 ∉ trackingParams) : delTracking q = q :=
  List.filter_eq_self.mpr fun p hp => decide_eq_true (h p hp)

/-- A character that is neither a key/value character nor `=` is absent from
an encoded pair segment. -/
theorem char_not_mem_segment {c : Char} {p : Str × Str}
    (h1 : p.1.all isQChar = true) (h2 : p.2.all isQChar = true)
    (hc : isQChar c = false) (hce : ¬ c = '=') :
    c ∉ p.1 ++ '=' :: p.2 := by
  intro hm
  rcases List.mem_append.mp hm with hk | hv
  · exact Bool.false_ne_true (hc ▸ List.all_eq_true.mp h1 _ hk)
  · rcases List.mem_cons.mp hv with he | hv2
    · exact hce he
    · exact Bool.false_ne_true (hc ▸ List.all_eq_true.mp h2 _ hv2)

/-- An encoded pair segment is nonempty. -/
theorem segment_ne_nil (p : Str × Str) : p.1 ++ '=' :: p.2 ≠ [] := by
  cases hp : p.1 with
  | nil => simp
  | cons x xs => simp

/-- The `parseQuery` step accepts an encoded pair segment whole. -/
theorem parseQuery_step {p : Str × Str}
    (h1 : p.1.all isQChar = true) (h2 : p.2.all isQChar = true) :
    (if (p.1 ++ '=' :: p.2) = [] ∨ (';') ∈ (p.1 ++ '=' :: p.2) then
        none else some (cutEq (p.1 ++ '=' :: p.2))) = some (p.1, p.2) := by
  rw [if_neg (not_or.mpr ⟨segment_ne_nil p,
    char_not_mem_segment h1 h2 (by decide) (by decide)⟩)]
  rw [cutEq_append (not_mem_of_all_pred h1 (by decide))]

/-- `parseQuery` recovers the pair list from a join of encoded segments. -/
theorem parseQuery_joinSep :
    ∀ (l : List (Str × Str)),
      (∀ p ∈ l, p.1.all isQChar = true ∧ p.2.all isQChar = true) →
      parseQuery (joinSep ('&' :: []) (l.map fun p => p.1 ++ '=' :: p.2)) = l := by
  intro l
  induction l with
  | nil => intro _; rfl
  | cons p rest ih =>
    intro h
    obtain ⟨hk, hv⟩ := h p (List.mem_cons_self p rest)
    have hrest := fun q hq => h q (List.mem_cons_of_mem p hq)
    have hnoamp : ('&') ∉ p.1 ++ '=' :: p.2 :=
      char_not_mem_segment hk hv (by decide) (by decide)
    cases rest with
    | nil =>
      simp only [List.map_cons, List.map_nil, joinSep, parseQuery]
      rw [splitOn_of_not_mem hnoamp]
      rw [List.filterMap_cons]
      rw [parseQuery_step hk hv]
      rfl
    | cons r rs =>
      simp only [List.map_cons, joinSep, parseQuery]
      rw [List.append_assoc]
      have hj : ('&' :: []) ++ joinSep ('&' :: [])
          ((r.1 ++ '=' :: r.2) :: rs.map fun p => p.1 ++ '=' :: p.2)
          = '&' :: joinSep ('&' :: [])
            ((r.1 ++ '=' :: r.2) :: rs.map fun p => p.1 ++ '=' :: p.2) := rfl
      rw [hj]
      rw [splitOn_append_cons _ hnoamp]
      rw [List.filterMap_cons]
      rw [parseQuery_step hk hv]
      have hihr := ih hrest
      simp only [parseQuery, List.map_cons] at hihr
      rw [hihr]

/-- `splitOn` inverts `joinSep` on clean segments. -/
theorem splitOn_joinSep {c : Char} :
    ∀ {segs : List Str}, segs ≠ [] → (∀ s ∈ segs, c ∉ s) →
      splitOn c (joinSep (c :: []) segs) = segs := by
  intro segs
  induction segs with
  | nil => intro h _; exact absurd rfl h
  | cons s rest ih =>
    intro _ hall
    cases rest with
    | nil =>
      show splitOn c (joinSep (c :: []) [s]) = [s]
      exact splitOn_of_not_mem (hall s (List.mem_cons_self s []))
    | cons t ts =>
      show splitOn c (s ++ (c :: []) ++ joinSep (c :: []) (t :: ts)) = s :: t :: ts
      rw [List.append_assoc]
      have hj : (c :: []) ++ joinSep (c :: []) (t :: ts)
          = c :: joinSep (c :: []) (t :: ts) := rfl
      rw [hj, splitOn_append_cons _ (hall s (List.mem_cons_self s (t :: ts)))]
      rw [ih (by simp) fun s2 hs2 => hall s2 (List.mem_cons_of_mem s hs2)]

/-- Joining segments that satisfy a character predicate (with a separator
that satisfies it too) satisfies the predicate. -/
theorem joinSep_all {pr : Char → Bool} {sep : Str} (hsep : sep.all pr = true) :
    ∀ {segs : List Str}, (∀ s ∈ segs, s.all pr = true) →
      (joinSep sep segs).all pr = true := by
  intro segs
  induction segs with
  | nil => intro _; rfl
  | cons s rest ih =>
    intro h
    cases rest with
    | nil => exact h s (List.mem_cons_self s [])
    | cons t ts =>
      show ((s ++ sep ++ joinSep sep (t :: ts)).all pr) = true
      simp only [List.all_append, Bool.and_eq_true]
      exact ⟨⟨h s (List.mem_cons_self s (t :: ts)), hsep⟩,
        ih fun s2 hs2 => h s2 (List.mem_cons_of_mem s hs2)⟩

/-- An encoded pair segment has query characters only. -/
theorem segment_all {p : Str × Str}
    (h1 : p.1.all isQChar = true) (h2 : p.2.all isQChar = true) :
    (p.1 ++ '=' :: p.2).all isQueryChar = true := by
  simp only [List.all_append, List.all_cons, Bool.and_eq_true]
  refine ⟨List.all_eq_true.mpr fun x hx =>
    isQueryChar_of_isQChar (List.all_eq_true.mp h1 x hx), by decide,
    List.all_eq_true.mpr fun x hx =>
      isQueryChar_of_isQChar (List.all_eq_true.mp h2 x hx)⟩

/-- `encodeQ` recovers the sorted pair list under `parseQuery`. -/
theorem parseQuery_encodeQ {q : List (Str × Str)}
    (h : ∀ p ∈ q, p.1.all isQChar = true ∧ p.2.all isQChar = true) :
    parseQuery (encodeQ q) = sortPairs q :=
  parseQuery_joinSep (sortPairs q) fun p hp => h p (mem_sortPairs hp)

/-- `encodeQ` output has query characters only. -/
theorem encodeQ_all {q : List (Str × Str)}
    (h : ∀ p ∈ q, p.1.all isQChar = true ∧ p.2.all isQChar = true) :
    (encodeQ q).all isQueryChar = true := by
  refine joinSep_all (by decide) fun s hs => ?_
  rcases List.mem_map.mp hs with ⟨p, hp, rfl⟩
  obtain ⟨h1, h2⟩ := h p (mem_sortPairs hp)
  exact segment_all h1 h2

/-- `encodeQ` output has at most one `=` per segment. -/
theorem encodeQ_shape {q : List (Str × Str)}
    (h : ∀ p ∈ q, p.1.all isQChar = true ∧ p.2.all isQChar = true) :
    queryShapeOk (encodeQ q) = true := by
  cases hq : sortPairs q with
  | nil =>
    simp only [queryShapeOk, encodeQ, hq, List.map_nil, joinSep]
    decide
  | cons p ps =>
    have hmem : ∀ p2 ∈ sortPairs q, p2.1.all isQChar = true ∧ p2.2.all isQChar = true :=
      fun p2 hp2 => h p2 (mem_sortPairs hp2)
    rw [hq] at hmem
    simp only [queryShapeOk, encodeQ, hq]
    rw [splitOn_joinSep (by simp) ?hclean]
    case hclean =>
      intro s hs
      rcases List.mem_map.mp hs with ⟨p2, hp2, rfl⟩
      obtain ⟨h1, h2⟩ := hmem p2 hp2
      exact char_not_mem_segment h1 h2 (by decide) (by decide)
    refine List.all_eq_true.mpr fun s hs => ?_
    rcases List.mem_map.mp hs with ⟨p2, hp2, rfl⟩
    obtain ⟨h1, h2⟩ := hmem p2 hp2
    have hkfil : p2.1.filter (fun c => c = '=') = [] :=
      List.filter_eq_nil_iff.mpr fun a ha hpa =>
        Bool.false_ne_true ((by decide : isQChar '=' = false) ▸
          (of_decide_eq_true hpa ▸ List.all_eq_true.mp h1 a ha))
    have hvfil : p2.2.filter (fun c => c = '=') = [] :=
      List.filter_eq_nil_iff.mpr fun a ha hpa =>
        Bool.false_ne_true ((by decide : isQChar '=' = false) ▸
          (of_decide_eq_true hpa ▸ List.all_eq_true.mp h2 a ha))
    refine decide_eq_true ?_
    rw [List.filter_append, hkfil, List.filter_cons, if_pos (by simp), hvfil]
    simp

/-- Trimming one slash keeps path characters. -/
theorem trimOneSlash_all {p : Str} (h : p.all isPathChar = true) :
    (trimOneSlash p).all isPathChar = true := by
  simp only [trimOneSlash]
  split
  · exact List.all_eq_true.mpr fun x hx =>
      List.all_eq_true.mp h x (List.dropLast_subset p hx)
  · exact h

/-- Trimming one slash keeps the empty-or-absolute path shape. -/
theorem trimOneSlash_shape {p : Str}
    (h : (p.isEmpty || p.head? = some '/') = true) :
    ((trimOneSlash p).isEmpty || (trimOneSlash p).head? = some '/') = true := by
  cases p with
  | nil => exact h
  | cons a t =>
    have ha : a = '/' := by
      simp only [List.isEmpty_cons, List.head?_cons, Bool.false_or,
        decide_eq_true_eq, Option.some.injEq] at h
      exact h
    subst ha
    simp only [trimOneSlash]
    split
    · cases t with
      | nil => decide
      | cons b t2 => simp [List.dropLast]
    · exact h

/-- Trimming one slash is idempotent unless the path ends in two slashes. -/
theorem trimOneSlash_idem {p : Str} (hp : ¬ ('/' :: '/' :: []) <:+ p) :
    trimOneSlash (trimOneSlash p) = trimOneSlash p := by
  by_cases hl : p.getLast? = some '/'
  · rcases List.getLast?_eq_some_iff.mp hl with ⟨q, rfl⟩
    have hq : ¬ q.getLast? = some '/' := by
      intro hq2
      rcases List.getLast?_eq_some_iff.mp hq2 with ⟨q2, rfl⟩
      exact hp ⟨q2, by simp⟩
    have h1 : trimOneSlash (q ++ '/' :: []) = q := by
      simp only [trimOneSlash]
      rw [if_pos (List.getLast?_concat q), List.dropLast_concat]
    rw [h1]
    simp only [trimOneSlash]
    rw [if_neg hq]
  · simp only [trimOneSlash]
    rw [if_neg hl, if_neg hl]

/-- `sortPairs` of a nonempty list is nonempty. -/
theorem sortPairs_ne_nil {q : List (Str × Str)} (h : q ≠ []) :
    sortPairs q ≠ [] := by
  intro he
  have hperm := sortPairs_perm q
  rw [he] at hperm
  exact h hperm.symm.eq_nil

/-- The query rewrite of `normalizeURL` is idempotent on well-formed raw
queries. -/
theorem normQuery_idem {rq : Str} (hall : rq.all isQueryChar = true)
    (hshape : queryShapeOk rq = true) :
    normQuery (normQuery rq) = normQuery rq := by
  by_cases hq : delTracking (parseQuery rq) = []
  · simp only [normQuery, hq]
    decide
  · have hpairs : ∀ p ∈ delTracking (parseQuery rq),
        p.1.all isQChar = true ∧ p.2.all isQChar = true :=
      fun p hp => parseQuery_pairsOk hall hshape p (mem_delTracking hp).1
    have hkeys : ∀ p ∈ sortPairs (delTracking (parseQuery rq)), p.1 ∉ trackingParams :=
      fun p hp => (mem_delTracking (mem_sortPairs hp)).2
    simp only [normQuery]
    rw [if_neg hq]
    rw [parseQuery_encodeQ hpairs]
    rw [delTracking_eq_self hkeys]
    rw [if_neg (sortPairs_ne_nil hq)]
    simp only [encodeQ, sortPairs_idem]

/-- The query rewrite keeps the query character class. -/
theorem normQuery_all {rq : Str} (hall : rq.all isQueryChar = true)
    (hshape : queryShapeOk rq = true) :
    (normQuery rq).all isQueryChar = true := by
  simp only [normQuery]
  split
  · rfl
  · exact encodeQ_all fun p hp => parseQuery_pairsOk hall hshape p (mem_delTracking hp).1

/-- The query rewrite keeps the segment shape. -/
theorem normQuery_shape {rq : Str} (hall : rq.all isQueryChar = true)
    (hshape : queryShapeOk rq = true) :
    queryShapeOk (normQuery rq) = true := by
  simp only [normQuery]
  split
  · decide
  · exact encodeQ_shape fun p hp => parseQuery_pairsOk hall hshape p (mem_delTracking hp).1

/-- The query rewrite of the empty raw query is empty. -/
theorem normQuery_nil : normQuery [] = [] := by decide

/-- `normalizeStruct` keeps well-formedness. -/
theorem checkWF_normalizeStruct {u : GoURL} (h : checkWF u = true) :
    checkWF (normalizeStruct u) = true := by
  obtain ⟨sch, host, path, rq, fq, frag⟩ := u
  simp only [checkWF, Bool.and_eq_true] at h
  obtain ⟨⟨⟨⟨⟨⟨⟨⟨⟨ha, hb⟩, hc⟩, hd⟩, he⟩, hf⟩, hg⟩, hh⟩, hi⟩, hj⟩ := h
  simp only [normalizeStruct, checkWF, Bool.and_eq_true]
  refine ⟨⟨⟨⟨⟨⟨⟨⟨⟨ha, hb⟩, hc⟩, hd⟩, trimOneSlash_all he⟩, trimOneSlash_shape hf⟩,
    normQuery_all hg hh⟩, normQuery_shape hg hh⟩, rfl⟩, ?_⟩
  cases hfq : fq with
  | false => rfl
  | true =>
    rw [hfq] at hj
    have hrq : rq = [] := by simpa using hj
    subst hrq
    rw [normQuery_nil]
    decide

/-- `normalizeStruct` is idempotent on well-formed URLs whose path does not
end in two slashes. -/
theorem normalizeStruct_idem {u : GoURL} (h : checkWF u = true)
    (hp : ¬ ('/' :: '/' :: []) <:+ u.path) :
    normalizeStruct (normalizeStruct u) = normalizeStruct u := by
  obtain ⟨sch, host, path, rq, fq, frag⟩ := u
  simp only [checkWF, Bool.and_eq_true] at h
  obtain ⟨⟨⟨⟨⟨⟨⟨⟨⟨ha, hb⟩, hc⟩, hd⟩, he⟩, hf⟩, hg⟩, hh⟩, hi⟩, hj⟩ := h
  simp only [normalizeStruct]
  rw [normQuery_idem hg hh, trimOneSlash_idem hp]

/-- The well-formedness gate lets only well-formed URLs through. -/
theorem ifWF_some {v u : GoURL}
    (h : (if checkWF v then some v else none) = some u) : checkWF u = true := by
  split at h
  · rename_i hwf
    injection h with h2
    exact h2 ▸ hwf
  · exact absurd h (by simp)

/-- Whatever `parseAfterScheme` accepts is well-formed. -/
theorem parseAfterScheme_checkWF {sch t : Str} {u : GoURL}
    (h : parseAfterScheme sch t = some u) : checkWF u = true := by
  simp only [parseAfterScheme] at h
  exact ifWF_some h

/-- Whatever `parseURL` accepts is well-formed. -/
theorem parseURL_checkWF {s : Str} {u : GoURL} (h : parseURL s = some u) :
    checkWF u = true := by
  simp only [parseURL] at h
  split at h
  · exact absurd h (by simp)
  · split at h
    · split at h
      · exact parseAfterScheme_checkWF h
      · exact absurd h (by simp)
    · exact absurd h (by simp)

/-! ### Round trip: printing a well-formed URL and parsing it back -/

/-- `splitFragFn` on a fragment-free string. -/
theorem splitFragFn_plain {t : Str} (h : '#' ∉ t) : splitFragFn t = (t, []) := by
  simp only [splitFragFn, splitFirst_of_not_mem h]

/-- `splitFragFn` recovers the fragment. -/
theorem splitFragFn_append {w frag : Str} (h : '#' ∉ w) :
    splitFragFn (w ++ '#' :: frag) = (w, frag) := by
  simp only [splitFragFn, splitFirst_append_cons frag h]

/-- `splitQueryFn` on a lone trailing `?` (Go's `ForceQuery`). -/
theorem splitQueryFn_force {w : Str} (h : ('?') ∉ w) :
    splitQueryFn (w ++ '?' :: []) = (w, [], true) := by
  simp only [splitQueryFn]
  rw [List.getLast?_concat, List.dropLast_concat]
  rw [if_pos ?hcond]
  case hcond =>
    rw [Bool.and_eq_true]
    exact ⟨by simp, List.all_eq_true.mpr fun c hc =>
      decide_eq_true fun he => h (he ▸ hc)⟩

/-- `splitQueryFn` on a query-free string. -/
theorem splitQueryFn_plain {w : Str} (h : ('?') ∉ w) :
    splitQueryFn w = (w, [], false) := by
  simp only [splitQueryFn]
  have hgl : ¬ (w.getLast? = some '?') :=
    fun he => h (List.mem_of_getLast?_eq_some he)
  rw [decide_eq_false hgl, Bool.false_and, if_neg (by simp)]
  rw [splitFirst_of_not_mem h]

/-- `splitQueryFn` recovers a nonempty raw query. -/
theorem splitQueryFn_append {w rq : Str} (hw : ('?') ∉ w) (hrq : ('?') ∉ rq)
    (hne : rq ≠ []) :
    splitQueryFn (w ++ '?' :: rq) = (w, rq, false) := by
  obtain ⟨r, rs, rfl⟩ := List.exists_cons_of_ne_nil hne
  simp only [splitQueryFn]
  have hgl : ¬ ((w ++ '?' :: r :: rs).getLast? = some '?') := by
    rw [List.getLast?_append_of_ne_nil _ (by simp), List.getLast?_cons_cons]
    intro he
    exact hrq (List.mem_of_getLast?_eq_some he)
  rw [decide_eq_false hgl, Bool.false_and, if_neg (by simp)]
  rw [splitFirst_append_cons _ hw]

/-- `splitHostFn` on a path-free authority. -/
theorem splitHostFn_plain {host : Str} (h : '/' ∉ host) :
    splitHostFn host = (host, []) := by
  simp only [splitHostFn, splitFirst_of_not_mem h]

/-- `splitHostFn` recovers host and path. -/
theorem splitHostFn_append {host p : Str} (h : '/' ∉ host) :
    splitHostFn (host ++ '/' :: p) = (host, '/' :: p) := by
  simp only [splitHostFn, splitFirst_append_cons p h]

/-- `parseURL` of an absolute URL delegates to `parseAfterScheme`. -/
theorem parseURL_eq_afterScheme {sch t : Str} (hs : (':') ∉ sch) :
    parseURL (sch ++ ':' :: '/' :: '/' :: t) = parseAfterScheme sch t := by
  simp only [parseURL]
  rw [splitFirst_append_cons _ hs]
  rfl

/-- Evaluate `parseAfterScheme` from the three split results. -/
theorem parseAfterScheme_eval {sch t w1 w2 host path rq frag : Str} {fq : Bool}
    (h1 : splitFragFn t = (w1, frag))
    (h2 : splitQueryFn w1 = (w2, rq, fq))
    (h3 : splitHostFn w2 = (host, path))
    (h4 : checkWF { scheme := sch, host := host, path := path,
                    rawQuery := rq, forceQuery := fq, fragment := frag } = true) :
    parseAfterScheme sch t = some { scheme := sch, host := host, path := path,
                                    rawQuery := rq, forceQuery := fq,
                                    fragment := frag } := by
  simp only [parseAfterScheme, h1, h2, h3, h4]
  rfl

/-- Printing a well-formed URL and parsing the result recovers the URL. -/
theorem parse_urlToString {v : GoURL} (hwf : checkWF v = true) :
    parseURL (urlToString v) = some v := by
  have h := hwf
  obtain ⟨sch, host, path, rq, fq, frag⟩ := v
  simp only [checkWF, Bool.and_eq_true] at h
  obtain ⟨⟨⟨⟨⟨⟨⟨⟨⟨ha, hb⟩, hc⟩, hd⟩, he⟩, hf⟩, hg⟩, hh⟩, hi⟩, hj⟩ := h
  have hsCol : (':') ∉ sch := not_mem_of_all_pred hb (by decide)
  have hHh : '#' ∉ host := not_mem_of_all_pred hd (by decide)
  have hPh : '#' ∉ path := not_mem_of_all_pred he (by decide)
  have hQh : '#' ∉ rq := not_mem_of_all_pred hg (by decide)
  have hHq : ('?') ∉ host := not_mem_of_all_pred hd (by decide)
  have hPq : ('?') ∉ path := not_mem_of_all_pred he (by decide)
  have hQq : ('?') ∉ rq := not_mem_of_all_pred hg (by decide)
  have hHs : '/' ∉ host := not_mem_of_all_pred hd (by decide)
  simp only [urlToString, List.append_assoc, List.cons_append]
  rw [parseURL_eq_afterScheme hsCol]
  simp only [← List.append_assoc]
  have hpath : path = [] ∨ ∃ pt, path = '/' :: pt := by
    cases path with
    | nil => exact Or.inl rfl
    | cons pc pt =>
      refine Or.inr ⟨pt, ?_⟩
      simp only [List.isEmpty_cons, List.head?_cons, Bool.false_or,
        decide_eq_true_eq, Option.some.injEq] at hf
      rw [hf]
  have hWq : ('?') ∉ host ++ path := List.not_mem_append hHq hPq
  have hWh : '#' ∉ host ++ path := List.not_mem_append hHh hPh
  have h3 : splitHostFn (host ++ path) = (host, path) := by
    rcases hpath with rfl | ⟨pt, rfl⟩
    · rw [List.append_nil]
      exact splitHostFn_plain hHs
    · exact splitHostFn_append hHs
  cases fq with
  | true =>
    have hrq : rq = [] := List.isEmpty_iff.mp (by simpa using hj)
    subst hrq
    have hQ : (if true = true ∨ ([] : Str) ≠ [] then '?' :: ([] : Str) else []) = '?' :: [] := by
      simp
    have h2 : splitQueryFn ((host ++ path) ++ '?' :: []) = (host ++ path, [], true) :=
      splitQueryFn_force hWq
    cases frag with
    | nil =>
      have hF : (if ([] : Str) = [] then ([] : Str) else '#' :: ([] : Str)) = [] := by simp
      rw [hQ, hF, List.append_nil]
      exact parseAfterScheme_eval
        (splitFragFn_plain (List.not_mem_append hWh (by simp)))
        h2 h3 hwf
    | cons fc ft =>
      have hF : (if fc :: ft = ([] : Str) then ([] : Str) else '#' :: fc :: ft)
          = '#' :: fc :: ft := by simp
      rw [hQ, hF]
      exact parseAfterScheme_eval
        (splitFragFn_append (List.not_mem_append hWh (by simp)))
        h2 h3 hwf
  | false =>
    cases hrqe : rq with
    | nil =>
      subst hrqe
      have hQ : (if false = true ∨ ([] : Str) ≠ [] then '?' :: ([] : Str) else []) = [] := by
        simp
      have h2 : splitQueryFn (host ++ path) = (host ++ path, [], false) :=
        splitQueryFn_plain hWq
      cases frag with
      | nil =>
        have hF : (if ([] : Str) = [] then ([] : Str) else '#' :: ([] : Str)) = [] := by simp
        rw [hQ, hF, List.append_nil, List.append_nil]
        exact parseAfterScheme_eval (splitFragFn_plain hWh) h2 h3 hwf
      | cons fc ft =>
        have hF : (if fc :: ft = ([] : Str) then ([] : Str) else '#' :: fc :: ft)
            = '#' :: fc :: ft := by simp
        rw [hQ, hF, List.append_nil]
        exact parseAfterScheme_eval (splitFragFn_append hWh) h2 h3 hwf
    | cons r rs =>
      subst hrqe
      have hQ : (if false = true ∨ r :: rs ≠ ([] : Str) then '?' :: r :: rs else [])
          = '?' :: r :: rs := by simp
      have h2 : splitQueryFn ((host ++ path) ++ '?' :: r :: rs)
          = (host ++ path, r :: rs, false) :=
        splitQueryFn_append hWq hQq (by simp)
      have hWh2 : '#' ∉ (host ++ path) ++ '?' :: r :: rs := by
        refine List.not_mem_append hWh ?_
        intro hm
        rcases List.mem_cons.mp hm with he2 | hm2
        · exact absurd he2 (by decide)
        · exact hQh hm2
      cases frag with
      | nil =>
        have hF : (if ([] : Str) = [] then ([] : Str) else '#' :: ([] : Str)) = [] := by simp
        rw [hQ, hF, List.append_nil]
        exact parseAfterScheme_eval (splitFragFn_plain hWh2) h2 h3 hwf
      | cons fc ft =>
        have hF : (if fc :: ft = ([] : Str) then ([] : Str) else '#' :: fc :: ft)
            = '#' :: fc :: ft := by simp
        rw [hQ, hF]
        exact parseAfterScheme_eval (splitFragFn_append hWh2) h2 h3 hwf

/-- C10 counterexample: normalization is *not* idempotent on every URL that
parses successfully.  `https://x.com//` normalizes to `https://x.com/`
(`TrimSuffix` strips only one slash), and normalizing the parse of that
yields `https://x.com` — a different string, so the first output is not a
fixed point. -/
theorem c10_double_slash_counterexample :
    (parseURL (("https://x.com//").toList)).map normalizeURL
      = some (("https://x.com/").toList) ∧
    (parseURL (("https://x.com/").toList)).map normalizeURL
      = some (("https://x.com").toList) ∧
    ("https://x.com/").toList ≠ ("https://x.com").toList := by
  decide

/-- C10 as amended: for every URL that parses successfully and whose path
does not end in two slashes, normalization is idempotent — re-parsing the
normalized string succeeds (yielding the normalized fields) and normalizing
again reproduces the same string.  A path ending in `//` is the one
exception: `TrimSuffix(path, "/")` strips a single slash, so a second pass
strips another. -/
theorem c10_normalize_idempotent (s : Str) (u : GoURL)
    (h : parseURL s = some u)
    (hp : ¬ ('/' :: '/' :: []) <:+ u.path) :
    parseURL (normalizeURL u) = some (normalizeStruct u) ∧
    normalizeURL (normalizeStruct u) = normalizeURL u := by
  have hwf := parseURL_checkWF h
  constructor
  · exact parse_urlToString (checkWF_normalizeStruct hwf)
  · simp only [normalizeURL]
    rw [normalizeStruct_idem hwf hp]

/-- Witness for `c10_normalize_idempotent` at a concrete URL. -/
theorem c10_normalize_idempotent_witness :
    parseURL (("https://x.com/a/?utm_source=nl").toList) = some sampleURL ∧
    (¬ ('/' :: '/' :: []) <:+ sampleURL.path) ∧
    parseURL (normalizeURL sampleURL) = some (normalizeStruct sampleURL) ∧
    normalizeURL (normalizeStruct sampleURL) = normalizeURL sampleURL :=
  ⟨by decide, by decide,
   (c10_normalize_idempotent (("https://x.com/a/?utm_source=nl").toList) sampleURL
     (by decide) (by decide)).1,
   (c10_normalize_idempotent (("https://x.com/a/?utm_source=nl").toList) sampleURL
     (by decide) (by decide)).2⟩

end GmailScanner
